import Mathlib

set_option linter.unusedSectionVars false
set_option linter.unusedVariables false

/-!
# Verification of the deblurring utility library

A shallow embedding in Lean 4 of `deblurringUtils.py`: Haar wavelet matrix
construction, Toeplitz blur matrix construction, the fast Kronecker-vector
product, vectorization helpers, intensity rescaling, the operator factory
`genBH`, and the `getrow` helper.

Matrices are embedded as Mathlib matrices over `Fin`-indexed types; flat
(numpy-style) index arithmetic is made explicit.  The normalized Haar matrix
has entries in `ℚ(√2)`, which we embed as the computable ring `Q2` of pairs
`a + b·√2` with `a b : ℚ`, so every statement is exact (no floating point).
The recursion of `haarMatrix` is embedded with explicit fuel, so that its
divergence on inputs `n ≤ 1` (a genuine `RecursionError` of the source) is
itself a provable fact.
-/

/-- The ring `ℚ(√2)`: the element `⟨a, b⟩` denotes `a + b·√2`.
Scalar type of the normalized Haar matrices, whose entries are rational
multiples of `(√2)⁻¹ ^ k`. -/
structure Q2 where
  re : ℚ
  im : ℚ
deriving DecidableEq

namespace Q2

/-- Componentwise extensionality for `Q2`. -/
theorem ext2 {x y : Q2} (h1 : x.re = y.re) (h2 : x.im = y.im) : x = y := by
  cases x; cases y; simp_all

instance : Zero Q2 := ⟨⟨0, 0⟩⟩
instance : One Q2 := ⟨⟨1, 0⟩⟩
instance : Add Q2 := ⟨fun x y => ⟨x.re + y.re, x.im + y.im⟩⟩
instance : Neg Q2 := ⟨fun x => ⟨-x.re, -x.im⟩⟩
instance : Mul Q2 := ⟨fun x y => ⟨x.re * y.re + 2 * x.im * y.im, x.re * y.im + x.im * y.re⟩⟩

@[simp] theorem zero_re : (0 : Q2).re = 0 := rfl
@[simp] theorem zero_im : (0 : Q2).im = 0 := rfl
@[simp] theorem one_re : (1 : Q2).re = 1 := rfl
@[simp] theorem one_im : (1 : Q2).im = 0 := rfl
@[simp] theorem add_re (x y : Q2) : (x + y).re = x.re + y.re := rfl
@[simp] theorem add_im (x y : Q2) : (x + y).im = x.im + y.im := rfl
@[simp] theorem neg_re (x : Q2) : (-x).re = -x.re := rfl
@[simp] theorem neg_im (x : Q2) : (-x).im = -x.im := rfl
@[simp] theorem mul_re (x y : Q2) : (x * y).re = x.re * y.re + 2 * x.im * y.im := rfl
@[simp] theorem mul_im (x y : Q2) : (x * y).im = x.re * y.im + x.im * y.re := rfl

instance : CommRing Q2 where
  add_assoc x y z := by apply ext2 <;> simp <;> ring
  zero_add x := by apply ext2 <;> simp
  add_zero x := by apply ext2 <;> simp
  add_comm x y := by apply ext2 <;> simp <;> ring
  mul_assoc x y z := by apply ext2 <;> simp <;> ring
  one_mul x := by apply ext2 <;> simp
  mul_one x := by apply ext2 <;> simp
  left_distrib x y z := by apply ext2 <;> simp <;> ring
  right_distrib x y z := by apply ext2 <;> simp <;> ring
  mul_comm x y := by apply ext2 <;> simp <;> ring
  zero_mul x := by apply ext2 <;> simp
  mul_zero x := by apply ext2 <;> simp
  neg_add_cancel x := by apply ext2 <;> simp
  nsmul := nsmulRec
  zsmul := zsmulRec
  natCast n := ⟨n, 0⟩
  natCast_zero := by apply ext2 <;> simp
  natCast_succ n := by apply ext2 <;> simp
  intCast q := ⟨q, 0⟩
  intCast_ofNat n := by
    apply ext2
    · show ((Int.ofNat n : ℤ) : ℚ) = (n : ℚ); rfl
    · rfl
  intCast_negSucc n := by
    apply ext2
    · show ((Int.negSucc n : ℤ) : ℚ) = -(((n + 1 : ℕ)) : ℚ); push_cast; ring
    · show (0 : ℚ) = -0; ring

@[simp] theorem natCast_re (n : ℕ) : (n : Q2).re = n := rfl
@[simp] theorem natCast_im (n : ℕ) : (n : Q2).im = 0 := rfl

@[simp] theorem two_re : (2 : Q2).re = 2 := rfl
@[simp] theorem two_im : (2 : Q2).im = 0 := rfl

/-- The element `(√2)⁻¹ = √2/2` of `Q2`; the building block of the Haar
normalization factors `2^(-(log2 n - r)/2) = ((√2)⁻¹)^(log2 n - r)`. -/
def invSqrt2 : Q2 := ⟨0, 1/2⟩

@[simp] theorem invSqrt2_mul_self : invSqrt2 * invSqrt2 = ⟨1/2, 0⟩ := by
  apply ext2 <;> simp [invSqrt2]

theorem invSqrt2_sq_mul_two : invSqrt2 * invSqrt2 * 2 = 1 := by
  apply ext2 <;> simp [invSqrt2]

end Q2

open Matrix

section FlatOps

variable {R : Type} [CommRing R]
variable {p q m n u w : ℕ}

/-- `np.kron(A, B)` on flat (`Fin`-numbered) indices: the entry at `(t, c)`
is `A[t / m, c / n] * B[t % m, c % n]`, exactly numpy's block layout. -/
def kronF (A : Matrix (Fin p) (Fin q) R) (B : Matrix (Fin m) (Fin n) R) :
    Matrix (Fin (p * m)) (Fin (q * n)) R :=
  Matrix.of fun t c => A t.divNat c.divNat * B t.modNat c.modNat

@[simp] theorem kronF_apply (A : Matrix (Fin p) (Fin q) R) (B : Matrix (Fin m) (Fin n) R)
    (t : Fin (p * m)) (c : Fin (q * n)) :
    kronF A B t c = A t.divNat c.divNat * B t.modNat c.modNat := rfl

/-- `scipy.linalg.khatri_rao(A, C)`: the column-wise Kronecker product of two
matrices with the same number of columns. -/
def khatriRao (A : Matrix (Fin p) (Fin q) R) (C : Matrix (Fin m) (Fin q) R) :
    Matrix (Fin (p * m)) (Fin q) R :=
  Matrix.of fun t j => A t.divNat j * C t.modNat j

@[simp] theorem khatriRao_apply (A : Matrix (Fin p) (Fin q) R) (C : Matrix (Fin m) (Fin q) R)
    (t : Fin (p * m)) (j : Fin q) :
    khatriRao A C t j = A t.divNat j * C t.modNat j := rfl

/-- `np.reshape(v, (n, q), order='F')`: column-major reshape of a flat vector
of length `q·n` into an `n × q` matrix, `V[i, j] = v[i + n·j]`. -/
def reshapeF (v : Fin (q * n) → R) : Matrix (Fin n) (Fin q) R :=
  Matrix.of fun i j => v (finProdFinEquiv (j, i))

@[simp] theorem reshapeF_apply (v : Fin (q * n) → R) (i : Fin n) (j : Fin q) :
    reshapeF v i j = v (finProdFinEquiv (j, i)) := rfl

/-- `fastKronVecProd(A, B, v)` from the source: reshape `v` column-major into
a `cols(B) × cols(A)` matrix, multiply by `B`, take the Khatri-Rao product
with `A` and sum along the columns. -/
def fastKronVecProd (A : Matrix (Fin p) (Fin q) R) (B : Matrix (Fin m) (Fin n) R)
    (v : Fin (q * n) → R) : Fin (p * m) → R :=
  fun t => ∑ j : Fin q, khatriRao A (B * reshapeF v) t j

/-- `divNat` of a packed pair recovers the first component. -/
theorem divNat_finProd (j : Fin q) (i : Fin n) :
    (finProdFinEquiv (j, i)).divNat = j := by
  have h := finProdFinEquiv.symm_apply_apply (j, i)
  rw [finProdFinEquiv_symm_apply] at h
  exact congrArg Prod.fst h

/-- `modNat` of a packed pair recovers the second component. -/
theorem modNat_finProd (j : Fin q) (i : Fin n) :
    (finProdFinEquiv (j, i)).modNat = i := by
  have h := finProdFinEquiv.symm_apply_apply (j, i)
  rw [finProdFinEquiv_symm_apply] at h
  exact congrArg Prod.snd h

/-- A sum over a flat index set `Fin (q * n)` is a double sum over the
corresponding pairs. -/
theorem sum_fin_mul (f : Fin (q * n) → R) :
    ∑ c : Fin (q * n), f c = ∑ j : Fin q, ∑ i : Fin n, f (finProdFinEquiv (j, i)) := by
  have h1 : ∑ c : Fin (q * n), f c = ∑ x : Fin q × Fin n, f (finProdFinEquiv x) :=
    (Fintype.sum_equiv finProdFinEquiv _ _ (fun x => rfl)).symm
  rw [h1]
  exact Fintype.sum_prod_type _

/-- Two flat indices agree iff their `divNat` and `modNat` parts agree. -/
theorem divNat_modNat_inj {t c : Fin (p * m)}
    (h1 : t.divNat = c.divNat) (h2 : t.modNat = c.modNat) : t = c := by
  have : finProdFinEquiv.symm t = finProdFinEquiv.symm c := by
    rw [finProdFinEquiv_symm_apply, finProdFinEquiv_symm_apply, h1, h2]
  exact finProdFinEquiv.symm.injective this

/-- The key refinement lemma: the fast Kronecker-vector product agrees with
the dense Kronecker product applied to the vector. -/
theorem fastKronVecProd_eq_kron_mulVec (A : Matrix (Fin p) (Fin q) R)
    (B : Matrix (Fin m) (Fin n) R) (v : Fin (q * n) → R) :
    fastKronVecProd A B v = (kronF A B).mulVec v := by
  funext t
  have hL : fastKronVecProd A B v t
      = ∑ j : Fin q, ∑ i : Fin n, A t.divNat j * (B t.modNat i * v (finProdFinEquiv (j, i))) := by
    unfold fastKronVecProd
    refine Finset.sum_congr rfl fun j _ => ?_
    rw [khatriRao_apply, Matrix.mul_apply, Finset.mul_sum]
    refine Finset.sum_congr rfl fun i _ => ?_
    rw [reshapeF_apply]
  rw [hL, Matrix.mulVec, dotProduct, sum_fin_mul (fun c => kronF A B t c * v c)]
  refine Finset.sum_congr rfl fun j _ => Finset.sum_congr rfl fun i _ => ?_
  rw [kronF_apply, divNat_finProd, modNat_finProd]
  ring

/-- Transpose commutes with the flat Kronecker product. -/
theorem kronF_transpose (A : Matrix (Fin p) (Fin q) R) (B : Matrix (Fin m) (Fin n) R) :
    (kronF A B)ᵀ = kronF Aᵀ Bᵀ := rfl

/-- Mixed-product property of the flat Kronecker product. -/
theorem kronF_mul (A : Matrix (Fin p) (Fin q) R) (B : Matrix (Fin m) (Fin n) R)
    (C : Matrix (Fin q) (Fin u) R) (D : Matrix (Fin n) (Fin w) R) :
    kronF A B * kronF C D = kronF (A * C) (B * D) := by
  ext t c
  rw [Matrix.mul_apply, sum_fin_mul (fun s => kronF A B t s * kronF C D s c)]
  rw [kronF_apply, Matrix.mul_apply, Matrix.mul_apply, Finset.sum_mul_sum]
  refine Finset.sum_congr rfl fun j _ => Finset.sum_congr rfl fun i _ => ?_
  rw [kronF_apply, kronF_apply, divNat_finProd, modNat_finProd]
  ring

/-- The flat Kronecker product of identity matrices is the identity. -/
theorem kronF_one : kronF (1 : Matrix (Fin p) (Fin p) R) (1 : Matrix (Fin m) (Fin m) R) = 1 := by
  ext t c
  rw [kronF_apply]
  by_cases h : t = c
  · subst h
    simp
  · have : ¬(t.divNat = c.divNat ∧ t.modNat = c.modNat) := by
      intro hc
      exact h (divNat_modNat_inj hc.1 hc.2)
    rcases Decidable.not_and_iff_or_not.mp this with h1 | h1 <;>
      simp [Matrix.one_apply, h1, Ne.symm, h]

/-- `np.hstack((L, R))`: horizontal concatenation on flat column indices. -/
def hstackF (L : Matrix (Fin m) (Fin p) R) (Rm : Matrix (Fin m) (Fin q) R) :
    Matrix (Fin m) (Fin (p + q)) R :=
  Matrix.of fun i j =>
    if h : (j : ℕ) < p then L i ⟨j, h⟩ else Rm i ⟨(j : ℕ) - p, by omega⟩

theorem hstackF_apply_left (L : Matrix (Fin m) (Fin p) R) (Rm : Matrix (Fin m) (Fin q) R)
    (i : Fin m) (j : Fin (p + q)) (h : (j : ℕ) < p) :
    hstackF L Rm i j = L i ⟨j, h⟩ := dif_pos h

theorem hstackF_apply_right (L : Matrix (Fin m) (Fin p) R) (Rm : Matrix (Fin m) (Fin q) R)
    (i : Fin m) (j : Fin (p + q)) (h : ¬ (j : ℕ) < p) :
    hstackF L Rm i j = Rm i ⟨(j : ℕ) - p, by omega⟩ := dif_neg h

end FlatOps

section VecOps

variable {α : Type} {m n : ℕ}

/-- `vectorize(im)`: `np.reshape(im, m*n, order='F')`, stacking the columns
of an `m × n` array into a vector of length `m·n`. -/
def vectorize (X : Matrix (Fin m) (Fin n) α) : Fin (m * n) → α :=
  fun t => X ⟨(t : ℕ) % m, by
      have hm : 0 < m := by
        rcases Nat.eq_zero_or_pos m with h | h
        · exact absurd t.isLt (by simp [h])
        · exact h
      exact Nat.mod_lt _ hm⟩
    ⟨(t : ℕ) / m, Nat.div_lt_of_lt_mul t.isLt⟩

/-- `unvectorize(vec, m, n)`: `np.reshape(vec, [m, n], order='F')`, the
column-major reshape back into an `m × n` array, `X[i, j] = vec[i + m·j]`. -/
def unvectorize (v : Fin (m * n) → α) : Matrix (Fin m) (Fin n) α :=
  Matrix.of fun i j => v ⟨(i : ℕ) + m * (j : ℕ), by
    have hi := i.isLt
    have hj := j.isLt
    calc (i : ℕ) + m * (j : ℕ) < m + m * (j : ℕ) := by omega
      _ = m * ((j : ℕ) + 1) := by ring
      _ ≤ m * n := Nat.mul_le_mul_left m hj⟩

/-- Column-major flattening followed by column-major reshaping is the
identity on `m × n` arrays. -/
theorem unvectorize_vectorize (X : Matrix (Fin m) (Fin n) α) :
    unvectorize (vectorize X) = X := by
  ext i j
  unfold unvectorize vectorize
  have h1 : ((i : ℕ) + m * (j : ℕ)) % m = (i : ℕ) := by
    rw [Nat.add_mul_mod_self_left]
    exact Nat.mod_eq_of_lt i.isLt
  have h2 : ((i : ℕ) + m * (j : ℕ)) / m = (j : ℕ) := by
    have hm : 0 < m := i.pos
    rw [Nat.add_mul_div_left _ _ hm, Nat.div_eq_of_lt i.isLt, Nat.zero_add]
  simp only [Matrix.of_apply]
  congr 1 <;> exact Fin.ext (by assumption)

end VecOps

section Blur

/-- `int(np.ceil((width-1)/2))` for a nonnegative integer width.  In natural
number arithmetic `⌈(w-1)/2⌉ = ((w-1)+1)/2`, which also agrees with numpy at
`w = 0` (where `np.ceil(-0.5) = -0 → 0`). -/
def halflen (width : ℕ) : ℕ := (width - 1 + 1) / 2

theorem halflen_eq (width : ℕ) : halflen width = width / 2 := by
  unfold halflen; omega

/-- The generator vector `c` (equal to `r`) of the blur Toeplitz matrix:
`np.zeros(m)` with `c[:1+halflen] = 1/width`.  Slice assignment clamps at the
array length `m`. -/
def blurGen (m width : ℕ) (k : ℕ) : ℚ :=
  if k < m ∧ k < 1 + halflen width then 1 / width else 0

/-- `scipy.linalg.toeplitz(c, r)`: entry `(i, j)` is `c[i-j]` below the
diagonal (inclusive) and `r[j-i]` above it. -/
def toeplitzM (m k : ℕ) (c r : ℕ → ℚ) : Matrix (Fin m) (Fin k) ℚ :=
  Matrix.of fun i j => if (j : ℕ) ≤ (i : ℕ) then c ((i : ℕ) - (j : ℕ)) else r ((j : ℕ) - (i : ℕ))

/-- `blurMatrix(m, width)` from the source: the symmetric banded box-filter
matrix `toeplitz(c, r)` with `c = r = blurGen`. -/
def blurMatrix (m width : ℕ) : Matrix (Fin m) (Fin m) ℚ :=
  toeplitzM m m (blurGen m width) (blurGen m width)

/-- A Toeplitz matrix with equal first column and first row is symmetric. -/
theorem toeplitzM_self_symm (m : ℕ) (c : ℕ → ℚ) :
    (toeplitzM m m c c)ᵀ = toeplitzM m m c c := by
  ext i j
  unfold toeplitzM
  simp only [Matrix.transpose_apply, Matrix.of_apply]
  rcases Nat.lt_trichotomy (i : ℕ) (j : ℕ) with h | h | h
  · rw [if_pos (by omega), if_neg (by omega)]
  · rw [if_pos (by omega), if_pos (by omega), h]
  · rw [if_neg (by omega), if_pos (by omega)]

/-- The blur matrix is symmetric. -/
theorem blurMatrix_symm (m width : ℕ) : (blurMatrix m width)ᵀ = blurMatrix m width :=
  toeplitzM_self_symm m (blurGen m width)

end Blur

section HaarDefs

/-- `int(2**np.ceil(np.log2(n)))`: rounds `n` up to the next power of two.
numpy maps `n = 0` to `int(2.0**(-inf)) = 0`. -/
def nextPow2 (n : ℕ) : ℕ := if n = 0 then 0 else 2 ^ Nat.clog 2 n

/-- Cast a matrix along equalities of its `Fin` dimensions (values are kept,
only the index types change). -/
def reindexF2 {R : Type} {a b c d : ℕ} (hr : a = c) (hc : b = d)
    (M : Matrix (Fin a) (Fin b) R) : Matrix (Fin c) (Fin d) R :=
  Matrix.reindex (finCongr hr) (finCongr hc) M

theorem reindexF2_rfl {R : Type} {a b : ℕ} (M : Matrix (Fin a) (Fin b) R) :
    reindexF2 rfl rfl M = M := by
  ext i j
  simp [reindexF2]

/-- The base `2 × 2` Haar matrix `[[1, 1], [1, -1]]`. -/
def haarBase : Matrix (Fin 2) (Fin 2) Q2 := !![1, 1; 1, -1]

/-- The column vector `[[1], [1]]`. -/
def col11 : Matrix (Fin 2) (Fin 1) Q2 := !![1; 1]

/-- The column vector `[[1], [-1]]`. -/
def col1m1 : Matrix (Fin 2) (Fin 1) Q2 := !![1; -1]

/-- The normalization loop of `haarMatrix` (state `(start, d)` after `s`
iterations): `d = np.zeros(n)`, `d[0] = 1/sqrt(n) = invSqrt2^k`, then for
`r` in `range(k)`: `d[start : start + 2^r] = 2^(-(k-r)/2) = invSqrt2^(k-r)`,
`start += 2^r`.  Here `k = int(np.log2(n))` and `n = 2^k`. -/
def dLoopAux (k : ℕ) : ℕ → ℕ × (ℕ → Q2)
  | 0 => (1, fun j => if j = 0 then Q2.invSqrt2 ^ k else 0)
  | s + 1 =>
    let st := dLoopAux k s
    (st.1 + 2 ^ s,
     fun j => if st.1 ≤ j ∧ j < st.1 + 2 ^ s then Q2.invSqrt2 ^ (k - s) else st.2 j)

/-- The diagonal normalization vector `d` produced by the loop, for a matrix
of size `2^k`, read at a raw index. -/
def dvecRaw (k : ℕ) (j : ℕ) : Q2 := (dLoopAux k k).2 j

/-- The normalization vector for a matrix of size `N` (the source computes
the number of loop iterations as `int(np.log2(N))`; on the reachable path
`N` is a power of two, where `1/np.sqrt(N) = invSqrt2 ^ log2 N` exactly). -/
def dvec (N : ℕ) : Fin N → Q2 := fun j => dvecRaw (Nat.log2 N) j.val

/-- The recursion of `haarMatrix` on the (already rounded) size `p`, with
explicit fuel: the source recursion `haarMatrix(n) → haarMatrix(n // 2)`
rounds its argument again at entry, so the recursive call is
`haarOfP fuel (nextPow2 (p / 2)) False`.  Running out of fuel returns `none`
and models the Python `RecursionError` (the source has no base case below
`p = 2`, so calls with `p ≤ 1` recurse forever).  The shape side condition
`hs` is exactly what `np.hstack` needs to succeed; it always holds on the
reachable path. -/
def haarOfP0 : (fuel : ℕ) → (p : ℕ) → Option (Matrix (Fin p) (Fin p) Q2)
  | 0, _ => none
  | fuel + 1, p =>
    if hp : p = 2 then
      some (reindexF2 hp.symm hp.symm haarBase)
    else
      match haarOfP0 fuel (nextPow2 (p / 2)) with
      | none => none
      | some Hprev =>
        if hs : nextPow2 (p / 2) = p / 2 ∧ p / 2 * 2 = p ∧ p / 2 * 1 + p / 2 * 1 = p then
          some (reindexF2 hs.2.1 hs.2.2
            (hstackF (reindexF2 (by rw [hs.1]) (by rw [hs.1]) (kronF Hprev col11))
              (kronF (1 : Matrix (Fin (p / 2)) (Fin (p / 2)) Q2) col1m1)))
        else none

/-- The full body of `haarMatrix` on the rounded size `p`: the `if/else`
recursion (`haarOfP0`, which the source always enters with
`normalized=False`, so the normalization step of the inner calls is the
identity), followed by the normalization block. -/
def haarOfP (fuel p : ℕ) (normalized : Bool) : Option (Matrix (Fin p) (Fin p) Q2) :=
  (haarOfP0 fuel p).map fun H => if normalized then H * Matrix.diagonal (dvec p) else H

/-- `haarMatrix(n, normalized)` from the source: round `n` up to the next
power of two and run the recursion (with explicit fuel). -/
def haarMatrix (fuel n : ℕ) (normalized : Bool) :
    Option (Matrix (Fin (nextPow2 n)) (Fin (nextPow2 n)) Q2) :=
  haarOfP fuel (nextPow2 n) normalized

/-- Structural (fuel-free) unnormalized Haar matrix of size `2^(k+1)`,
following the recursion of the source on the power-of-two path. -/
def haarUnS : (k : ℕ) → Matrix (Fin (2 ^ (k + 1))) (Fin (2 ^ (k + 1))) Q2
  | 0 => reindexF2 (by norm_num) (by norm_num) haarBase
  | k + 1 =>
    reindexF2 (by rw [pow_succ 2 (k + 1)]) (by rw [pow_succ 2 (k + 1)]; ring)
      (hstackF (kronF (haarUnS k) col11)
        (kronF (1 : Matrix (Fin (2 ^ (k + 1))) (Fin (2 ^ (k + 1))) Q2) col1m1))

/-- Structural normalized Haar matrix of size `2^(k+1)`. -/
def haarNS (k : ℕ) : Matrix (Fin (2 ^ (k + 1))) (Fin (2 ^ (k + 1))) Q2 :=
  haarUnS k * Matrix.diagonal (fun j => dvecRaw (k + 1) j.val)

end HaarDefs

section HaarBridge

theorem nextPow2_pow (k : ℕ) : nextPow2 (2 ^ k) = 2 ^ k := by
  unfold nextPow2
  rw [if_neg (pow_ne_zero k (by norm_num)), Nat.clog_pow 2 k (by norm_num)]

theorem pow_succ_div_two (k : ℕ) : 2 ^ (k + 1) / 2 = 2 ^ k := by
  rw [pow_succ]
  exact Nat.mul_div_cancel _ (by norm_num)

theorem log2_pow (k : ℕ) : Nat.log2 (2 ^ k) = k := by
  rw [Nat.log2_eq_log_two]
  exact Nat.log_pow (by norm_num) k

theorem haarOfP0_congr (fuel : ℕ) {p p' : ℕ} (h : p = p') :
    haarOfP0 fuel p = (haarOfP0 fuel p').map (reindexF2 h.symm h.symm) := by
  subst h
  cases hx : haarOfP0 fuel p <;> simp [reindexF2_rfl]

theorem reindexF2_comp {R : Type} {a b c d e f : ℕ} (h1 : a = c) (h2 : b = d)
    (h3 : c = e) (h4 : d = f) (M : Matrix (Fin a) (Fin b) R) :
    reindexF2 h3 h4 (reindexF2 h1 h2 M) = reindexF2 (h1.trans h3) (h2.trans h4) M := by
  subst h1; subst h2; subst h3; subst h4
  simp [reindexF2_rfl]

theorem kronF_reindexF2 {R : Type} [CommRing R] {a b c d m n : ℕ} (h1 : a = c) (h2 : b = d)
    (M : Matrix (Fin a) (Fin b) R) (B : Matrix (Fin m) (Fin n) R) :
    kronF (reindexF2 h1 h2 M) B
      = reindexF2 (by rw [h1]) (by rw [h2]) (kronF M B) := by
  subst h1; subst h2
  simp [reindexF2_rfl]

theorem hstackF_reindexF2 {R : Type} {a c b1 d1 b2 d2 : ℕ} (h : a = c) (h1 : b1 = d1)
    (h2 : b2 = d2) (L : Matrix (Fin a) (Fin b1) R) (Rt : Matrix (Fin a) (Fin b2) R) :
    hstackF (reindexF2 h h1 L) (reindexF2 h h2 Rt)
      = reindexF2 h (by rw [h1, h2]) (hstackF L Rt) := by
  subst h; subst h1; subst h2
  simp [reindexF2_rfl]

theorem reindexF2_one {R : Type} [CommRing R] {a c : ℕ} (h : a = c) :
    reindexF2 h h (1 : Matrix (Fin a) (Fin a) R) = 1 := by
  subst h
  simp [reindexF2_rfl]

theorem reindexF2_mul {R : Type} [CommRing R] {a b c a2 b2 c2 : ℕ} (h1 : a = a2) (h2 : b = b2)
    (h3 : c = c2) (M : Matrix (Fin a) (Fin b) R) (N : Matrix (Fin b) (Fin c) R) :
    reindexF2 h1 h2 M * reindexF2 h2 h3 N = reindexF2 h1 h3 (M * N) := by
  subst h1; subst h2; subst h3
  simp [reindexF2_rfl]

theorem reindexF2_transpose {R : Type} {a b c d : ℕ} (h1 : a = c) (h2 : b = d)
    (M : Matrix (Fin a) (Fin b) R) :
    (reindexF2 h1 h2 M)ᵀ = reindexF2 h2 h1 Mᵀ := by
  subst h1; subst h2
  simp [reindexF2_rfl]

theorem reindexF2_mul_diagonal {a c : ℕ} (h : a = c) (M : Matrix (Fin a) (Fin a) Q2)
    (d : ℕ → Q2) :
    reindexF2 h h M * Matrix.diagonal (fun j : Fin c => d j.val)
      = reindexF2 h h (M * Matrix.diagonal (fun j : Fin a => d j.val)) := by
  subst h
  simp [reindexF2_rfl]

theorem dvec_pow (K : ℕ) : dvec (2 ^ K) = fun j : Fin (2 ^ K) => dvecRaw K j.val := by
  funext j
  simp [dvec, log2_pow]

/-- One-step unfolding of the fueled recursion. -/
theorem haarOfP0_succ (fuel p : ℕ) :
    haarOfP0 (fuel + 1) p =
      if hp : p = 2 then
        some (reindexF2 hp.symm hp.symm haarBase)
      else
        match haarOfP0 fuel (nextPow2 (p / 2)) with
        | none => none
        | some Hprev =>
          if hs : nextPow2 (p / 2) = p / 2 ∧ p / 2 * 2 = p ∧ p / 2 * 1 + p / 2 * 1 = p then
            some (reindexF2 hs.2.1 hs.2.2
              (hstackF (reindexF2 (by rw [hs.1]) (by rw [hs.1]) (kronF Hprev col11))
                (kronF (1 : Matrix (Fin (p / 2)) (Fin (p / 2)) Q2) col1m1)))
          else none := rfl

/-- The fueled recursion on a power-of-two size `2^(k+1)` with enough fuel
returns the structural unnormalized Haar matrix. -/
theorem haarOfP0_pow (k : ℕ) : ∀ fuel, k + 1 ≤ fuel →
    haarOfP0 fuel (2 ^ (k + 1)) = some (haarUnS k) := by
  induction k with
  | zero =>
    intro fuel hf
    obtain ⟨f, rfl⟩ : ∃ f, fuel = f + 1 := ⟨fuel - 1, by omega⟩
    rw [haarOfP0_congr (f + 1) (show (2:ℕ) ^ 1 = 2 by norm_num), haarOfP0_succ,
      dif_pos rfl]
    rfl
  | succ k ih =>
    intro fuel hf
    obtain ⟨f, rfl⟩ : ∃ f, fuel = f + 1 := ⟨fuel - 1, by omega⟩
    have hdiv : 2 ^ (k + 2) / 2 = 2 ^ (k + 1) := pow_succ_div_two (k + 1)
    have hnp : nextPow2 (2 ^ (k + 2) / 2) = 2 ^ (k + 1) := by rw [hdiv, nextPow2_pow]
    have hp2 : (2:ℕ) ^ (k + 2) ≠ 2 := by
      have h4 : (2:ℕ) ^ 2 ≤ 2 ^ (k + 2) := Nat.pow_le_pow_right (by norm_num) (by omega)
      norm_num at h4
      omega
    rw [haarOfP0_succ, dif_neg hp2, haarOfP0_congr f hnp, ih f (by omega)]
    simp only [Option.map_some']
    have hcond : nextPow2 (2 ^ (k + 2) / 2) = 2 ^ (k + 2) / 2 ∧
        2 ^ (k + 2) / 2 * 2 = 2 ^ (k + 2) ∧
        2 ^ (k + 2) / 2 * 1 + 2 ^ (k + 2) / 2 * 1 = 2 ^ (k + 2) := by
      refine ⟨by rw [hnp, hdiv], ?_, ?_⟩ <;> (rw [hdiv, pow_succ 2 (k + 1)]; try ring)
    rw [dif_pos hcond]
    rw [kronF_reindexF2 hnp.symm hnp.symm (haarUnS k) col11]
    rw [reindexF2_comp]
    rw [show (1 : Matrix (Fin (2 ^ (k + 2) / 2)) (Fin (2 ^ (k + 2) / 2)) Q2)
        = reindexF2 hdiv.symm hdiv.symm 1 from (reindexF2_one hdiv.symm).symm]
    rw [kronF_reindexF2 hdiv.symm hdiv.symm
      (1 : Matrix (Fin (2 ^ (k + 1))) (Fin (2 ^ (k + 1))) Q2) col1m1]
    rw [hstackF_reindexF2]
    rw [reindexF2_comp]
    rfl

/-- The fueled `haarOfP` on a power-of-two size, both flag values. -/
theorem haarOfP_pow (k fuel : ℕ) (b : Bool) (hf : k + 1 ≤ fuel) :
    haarOfP fuel (2 ^ (k + 1)) b = some (if b then haarNS k else haarUnS k) := by
  unfold haarOfP
  rw [haarOfP0_pow k fuel hf]
  cases b
  · simp
  · simp only [Option.map_some', if_true]
    rw [dvec_pow (k + 1)]
    rfl

end HaarBridge

section HaarGram

/-- `kronF` of two diagonal matrices is diagonal. -/
theorem kronF_diagonal {R : Type} [CommRing R] {p m : ℕ} (f : Fin p → R) (g : Fin m → R) :
    kronF (Matrix.diagonal f) (Matrix.diagonal g)
      = Matrix.diagonal (fun t : Fin (p * m) => f t.divNat * g t.modNat) := by
  ext t c
  rw [kronF_apply]
  by_cases h : t = c
  · subst h
    simp [Matrix.diagonal]
  · have hne : ¬(t.divNat = c.divNat ∧ t.modNat = c.modNat) := by
      intro hc
      exact h (divNat_modNat_inj hc.1 hc.2)
    rw [Matrix.diagonal_apply_ne _ h]
    rcases Decidable.not_and_iff_or_not.mp hne with h1 | h1 <;>
      simp [Matrix.diagonal_apply_ne _ h1]

/-- `kronF` with a zero factor is zero. -/
theorem kronF_zero_right {R : Type} [CommRing R] {p q m n : ℕ} (A : Matrix (Fin p) (Fin q) R) :
    kronF A (0 : Matrix (Fin m) (Fin n) R) = 0 := by
  ext t c
  simp

/-- Gram matrix of a flat Kronecker product. -/
theorem kronF_gram {R : Type} [CommRing R] {p q m n : ℕ} (A : Matrix (Fin p) (Fin q) R)
    (B : Matrix (Fin m) (Fin n) R) :
    (kronF A B)ᵀ * kronF A B = kronF (Aᵀ * A) (Bᵀ * B) := by
  rw [kronF_transpose, kronF_mul]

/-- Cross product of two flat Kronecker factors. -/
theorem kronF_cross {R : Type} [CommRing R] {p q m n u w : ℕ} (A : Matrix (Fin p) (Fin q) R)
    (B : Matrix (Fin m) (Fin n) R) (C : Matrix (Fin p) (Fin u) R)
    (D : Matrix (Fin m) (Fin w) R) :
    (kronF A B)ᵀ * kronF C D = kronF (Aᵀ * C) (Bᵀ * D) := by
  rw [kronF_transpose, kronF_mul]

theorem col11_gram : col11ᵀ * col11 = Matrix.diagonal (fun _ : Fin 1 => (2 : Q2)) := by
  ext i j
  fin_cases i
  fin_cases j
  simp [col11, Matrix.mul_apply, Fin.sum_univ_succ, Matrix.diagonal]
  ring

theorem col1m1_gram : col1m1ᵀ * col1m1 = Matrix.diagonal (fun _ : Fin 1 => (2 : Q2)) := by
  ext i j
  fin_cases i
  fin_cases j
  simp [col1m1, Matrix.mul_apply, Fin.sum_univ_succ, Matrix.diagonal]
  ring

theorem col11_cross : col11ᵀ * col1m1 = 0 := by
  ext i j
  fin_cases i
  fin_cases j
  simp [col11, col1m1, Matrix.mul_apply, Fin.sum_univ_succ]

theorem haarBase_gram :
    haarBaseᵀ * haarBase = Matrix.diagonal (fun j : Fin 2 => (2 : Q2) ^ (1 - Nat.log 2 j.val)) := by
  have he : ∀ j : Fin 2, (2 : Q2) ^ (1 - Nat.log 2 (j : ℕ)) = 2 := by
    intro j
    fin_cases j <;> simp
  rw [show (Matrix.diagonal fun j : Fin 2 => (2 : Q2) ^ (1 - Nat.log 2 (j : ℕ)))
      = Matrix.diagonal (fun _ : Fin 2 => (2 : Q2)) from by rw [funext he]]
  ext i j
  fin_cases i <;> fin_cases j <;>
    simp [haarBase, Matrix.mul_apply, Fin.sum_univ_succ, Matrix.diagonal] <;> ring

/-- `reindexF2` of a diagonal matrix given by a raw-index function. -/
theorem reindexF2_diagonal {R : Type} [CommRing R] {a c : ℕ} (h : a = c) (d : ℕ → R) :
    reindexF2 h h (Matrix.diagonal (fun j : Fin a => d j.val))
      = Matrix.diagonal (fun j : Fin c => d j.val) := by
  subst h
  simp [reindexF2_rfl]

/-- Gram matrix of a horizontal concatenation whose blocks have diagonal
self-Grams and vanishing cross-Grams. -/
theorem hstackF_gram_diagonal {R : Type} [CommRing R] {m a b : ℕ}
    (L : Matrix (Fin m) (Fin a) R) (Rt : Matrix (Fin m) (Fin b) R) (dL dR : ℕ → R)
    (hLL : Lᵀ * L = Matrix.diagonal (fun j : Fin a => dL j.val))
    (hLR : Lᵀ * Rt = 0) (hRR : Rtᵀ * Rt = Matrix.diagonal (fun j : Fin b => dR j.val)) :
    (hstackF L Rt)ᵀ * hstackF L Rt
      = Matrix.diagonal
          (fun j : Fin (a + b) => if (j : ℕ) < a then dL j.val else dR (j.val - a)) := by
  ext c1 c2
  rw [Matrix.mul_apply]
  simp only [Matrix.transpose_apply]
  by_cases h1 : (c1 : ℕ) < a <;> by_cases h2 : (c2 : ℕ) < a
  · rw [Finset.sum_congr rfl
      (fun t _ => by rw [hstackF_apply_left _ _ _ _ h1, hstackF_apply_left _ _ _ _ h2])]
    have hL : (Lᵀ * L) ⟨c1, h1⟩ ⟨(c2 : ℕ), h2⟩ = ∑ t, L t ⟨c1, h1⟩ * L t ⟨(c2 : ℕ), h2⟩ := by
      rw [Matrix.mul_apply]
      simp [Matrix.transpose_apply]
    rw [← hL, hLL]
    by_cases he : c1 = c2
    · subst he
      simp [Matrix.diagonal, if_pos h1]
    · have hv : (c1 : ℕ) ≠ (c2 : ℕ) := fun hc => he (Fin.ext hc)
      rw [Matrix.diagonal_apply_ne _ he]
      exact Matrix.diagonal_apply_ne _ (fun hc => hv (Fin.mk_eq_mk.mp hc))
  · rw [Finset.sum_congr rfl
      (fun t _ => by rw [hstackF_apply_left _ _ _ _ h1, hstackF_apply_right _ _ _ _ h2])]
    have hL : (Lᵀ * Rt) ⟨c1, h1⟩ ⟨(c2 : ℕ) - a, by omega⟩
        = ∑ t, L t ⟨c1, h1⟩ * Rt t ⟨(c2 : ℕ) - a, by omega⟩ := by
      rw [Matrix.mul_apply]
      simp [Matrix.transpose_apply]
    rw [← hL, hLR]
    have he : c1 ≠ c2 := fun hc => h2 (hc ▸ h1)
    rw [Matrix.diagonal_apply_ne _ he]
    simp
  · rw [Finset.sum_congr rfl
      (fun t _ => by rw [hstackF_apply_right _ _ _ _ h1, hstackF_apply_left _ _ _ _ h2])]
    have hL : (Lᵀ * Rt) ⟨c2, h2⟩ ⟨(c1 : ℕ) - a, by omega⟩
        = ∑ t, L t ⟨c2, h2⟩ * Rt t ⟨(c1 : ℕ) - a, by omega⟩ := by
      rw [Matrix.mul_apply]
      simp [Matrix.transpose_apply]
    have hsum : ∑ t, Rt t ⟨(c1 : ℕ) - a, by omega⟩ * L t ⟨c2, h2⟩
        = ∑ t, L t ⟨c2, h2⟩ * Rt t ⟨(c1 : ℕ) - a, by omega⟩ :=
      Finset.sum_congr rfl (fun t _ => mul_comm _ _)
    rw [hsum, ← hL, hLR]
    have he : c1 ≠ c2 := fun hc => h1 (hc ▸ h2)
    rw [Matrix.diagonal_apply_ne _ he]
    simp
  · rw [Finset.sum_congr rfl
      (fun t _ => by rw [hstackF_apply_right _ _ _ _ h1, hstackF_apply_right _ _ _ _ h2])]
    have hL : (Rtᵀ * Rt) ⟨(c1 : ℕ) - a, by omega⟩ ⟨(c2 : ℕ) - a, by omega⟩
        = ∑ t, Rt t ⟨(c1 : ℕ) - a, by omega⟩ * Rt t ⟨(c2 : ℕ) - a, by omega⟩ := by
      rw [Matrix.mul_apply]
      simp [Matrix.transpose_apply]
    rw [← hL, hRR]
    by_cases he : c1 = c2
    · subst he
      simp [Matrix.diagonal, if_neg h1]
    · have hv : (c1 : ℕ) - a ≠ (c2 : ℕ) - a := by
        have hv0 : (c1 : ℕ) ≠ (c2 : ℕ) := fun hc => he (Fin.ext hc)
        omega
      rw [Matrix.diagonal_apply_ne _ he]
      exact Matrix.diagonal_apply_ne _ (fun hc => hv (Fin.mk_eq_mk.mp hc))

end HaarGram

section HaarOrtho

theorem dLoopAux_fst (k : ℕ) : ∀ s, (dLoopAux k s).1 = 2 ^ s := by
  intro s
  induction s with
  | zero => rfl
  | succ s ih =>
    show (dLoopAux k s).1 + 2 ^ s = 2 ^ (s + 1)
    rw [ih, pow_succ]
    ring

theorem dLoopAux_snd (k : ℕ) :
    ∀ s, ∀ j < 2 ^ s, (dLoopAux k s).2 j = Q2.invSqrt2 ^ (k - Nat.log 2 j) := by
  intro s
  induction s with
  | zero =>
    intro j hj
    have hj0 : j = 0 := by omega
    subst hj0
    simp [dLoopAux, Nat.log_zero_right]
  | succ s ih =>
    intro j hj
    have h2 : (2:ℕ) ^ (s + 1) = 2 ^ s + 2 ^ s := by rw [pow_succ]; ring
    show (if (dLoopAux k s).1 ≤ j ∧ j < (dLoopAux k s).1 + 2 ^ s
        then Q2.invSqrt2 ^ (k - s) else (dLoopAux k s).2 j) = _
    rw [dLoopAux_fst k s]
    by_cases hc : 2 ^ s ≤ j
    · have hlog : Nat.log 2 j = s :=
        Nat.log_eq_of_pow_le_of_lt_pow hc (by omega)
      rw [if_pos ⟨hc, by omega⟩, hlog]
    · rw [if_neg (fun hcc => hc hcc.1)]
      exact ih j (by omega)

theorem dvecRaw_eq (K j : ℕ) (h : j < 2 ^ K) :
    dvecRaw K j = Q2.invSqrt2 ^ (K - Nat.log 2 j) :=
  dLoopAux_snd K K j h

/-- Unfolding of the structural recursion at a successor size. -/
theorem haarUnS_succ (k : ℕ) :
    haarUnS (k + 1)
      = reindexF2 (by rw [pow_succ 2 (k + 1)]) (by rw [pow_succ 2 (k + 1)]; ring)
          (hstackF (kronF (haarUnS k) col11)
            (kronF (1 : Matrix (Fin (2 ^ (k + 1))) (Fin (2 ^ (k + 1))) Q2) col1m1)) := rfl

/-- The Gram matrix of the unnormalized Haar matrix of size `2^(k+1)` is the
diagonal of column norms `2^(k+1-log2 j)`. -/
theorem haarUnS_gram (k : ℕ) :
    (haarUnS k)ᵀ * haarUnS k
      = Matrix.diagonal
          (fun j : Fin (2 ^ (k + 1)) => (2 : Q2) ^ (k + 1 - Nat.log 2 j.val)) := by
  induction k with
  | zero =>
    rw [show haarUnS 0 = reindexF2 (by norm_num) (by norm_num) haarBase from rfl,
      reindexF2_transpose, reindexF2_mul, haarBase_gram,
      reindexF2_diagonal _ (fun v => (2 : Q2) ^ (1 - Nat.log 2 v))]
  | succ k ih =>
    rw [haarUnS_succ k, reindexF2_transpose, reindexF2_mul]
    have hLL : (kronF (haarUnS k) col11)ᵀ * kronF (haarUnS k) col11
        = Matrix.diagonal (fun t : Fin (2 ^ (k + 1) * 1) =>
            (2 : Q2) ^ (k + 1 - Nat.log 2 (t.val / 1)) * 2) := by
      rw [kronF_gram, ih, col11_gram, kronF_diagonal]
      rfl
    have hRR : (kronF (1 : Matrix (Fin (2 ^ (k + 1))) (Fin (2 ^ (k + 1))) Q2) col1m1)ᵀ
          * kronF (1 : Matrix (Fin (2 ^ (k + 1))) (Fin (2 ^ (k + 1))) Q2) col1m1
        = Matrix.diagonal (fun t : Fin (2 ^ (k + 1) * 1) => (1 : Q2) * 2) := by
      rw [kronF_gram, Matrix.transpose_one, Matrix.one_mul, col1m1_gram,
        ← Matrix.diagonal_one, kronF_diagonal]
    have hLR : (kronF (haarUnS k) col11)ᵀ
          * kronF (1 : Matrix (Fin (2 ^ (k + 1))) (Fin (2 ^ (k + 1))) Q2) col1m1 = 0 := by
      rw [kronF_cross, col11_cross, kronF_zero_right]
    rw [hstackF_gram_diagonal _ _
        (fun v => (2 : Q2) ^ (k + 1 - Nat.log 2 (v / 1)) * 2) (fun _ => (1 : Q2) * 2)
        hLL hLR hRR,
      reindexF2_diagonal _
        (fun v => if v < 2 ^ (k + 1) * 1
          then (2 : Q2) ^ (k + 1 - Nat.log 2 (v / 1)) * 2 else (1 : Q2) * 2)]
    have hfun : (fun j : Fin (2 ^ (k + 2)) =>
          if (j : ℕ) < 2 ^ (k + 1) * 1
          then (2 : Q2) ^ (k + 1 - Nat.log 2 ((j : ℕ) / 1)) * 2 else (1 : Q2) * 2)
        = fun j : Fin (2 ^ (k + 2)) => (2 : Q2) ^ (k + 1 + 1 - Nat.log 2 (j : ℕ)) := by
      funext j
      by_cases hj : (j : ℕ) < 2 ^ (k + 1) * 1
      · rw [if_pos hj, Nat.div_one]
        have hlog : Nat.log 2 (j : ℕ) ≤ k + 1 := by
          rcases Nat.eq_zero_or_pos (j : ℕ) with h0 | h0
          · rw [h0, Nat.log_zero_right]; omega
          · have := Nat.log_lt_of_lt_pow (by omega : (j : ℕ) ≠ 0)
              (by omega : (j : ℕ) < 2 ^ (k + 1))
            omega
        rw [← pow_succ]
        congr 1
        omega
      · rw [if_neg hj, one_mul]
        have hup : (j : ℕ) < 2 ^ (k + 1 + 1) := j.isLt
        have hlow : (2:ℕ) ^ (k + 1) ≤ (j : ℕ) := by omega
        have hlog : Nat.log 2 (j : ℕ) = k + 1 :=
          Nat.log_eq_of_pow_le_of_lt_pow hlow hup
        rw [hlog]
        have he : k + 1 + 1 - (k + 1) = 1 := by omega
        rw [he, pow_one]
    rw [hfun]

/-- Orthonormality of the structural normalized Haar matrix:
`H^T H = I` exactly, over `ℚ(√2)`. -/
theorem haarNS_gram (k : ℕ) : (haarNS k)ᵀ * haarNS k = 1 := by
  unfold haarNS
  rw [Matrix.transpose_mul, Matrix.diagonal_transpose, Matrix.mul_assoc,
    ← Matrix.mul_assoc (haarUnS k)ᵀ, haarUnS_gram k, Matrix.diagonal_mul_diagonal,
    Matrix.diagonal_mul_diagonal, ← Matrix.diagonal_one]
  have hbase : Q2.invSqrt2 * ((2 : Q2) * Q2.invSqrt2) = 1 := by
    calc Q2.invSqrt2 * ((2 : Q2) * Q2.invSqrt2)
        = Q2.invSqrt2 * Q2.invSqrt2 * 2 := by ring
      _ = 1 := Q2.invSqrt2_sq_mul_two
  have hfun : (fun j : Fin (2 ^ (k + 1)) => dvecRaw (k + 1) j.val
        * ((2 : Q2) ^ (k + 1 - Nat.log 2 j.val) * dvecRaw (k + 1) j.val))
      = fun _ : Fin (2 ^ (k + 1)) => (1 : Q2) := by
    funext j
    rw [dvecRaw_eq (k + 1) j.val j.isLt]
    calc Q2.invSqrt2 ^ (k + 1 - Nat.log 2 (j : ℕ))
          * ((2 : Q2) ^ (k + 1 - Nat.log 2 (j : ℕ))
            * Q2.invSqrt2 ^ (k + 1 - Nat.log 2 (j : ℕ)))
        = (Q2.invSqrt2 * ((2 : Q2) * Q2.invSqrt2)) ^ (k + 1 - Nat.log 2 (j : ℕ)) := by
          rw [mul_pow, mul_pow]
      _ = 1 := by rw [hbase, one_pow]
  rw [hfun]

end HaarOrtho

section HaarTop

/-- The recursion never returns on the rounded size `0`: it calls itself on
`nextPow2 (0 / 2) = 0` forever, so every fuel bound is exhausted. -/
theorem haarOfP0_zero : ∀ fuel, haarOfP0 fuel 0 = none := by
  intro fuel
  induction fuel with
  | zero => rfl
  | succ fuel ih =>
    rw [haarOfP0_succ, dif_neg (by norm_num)]
    rw [show haarOfP0 fuel (nextPow2 (0 / 2)) = none from ih]

theorem nextPow2_zero : nextPow2 0 = 0 := rfl

theorem nextPow2_one : nextPow2 1 = 1 := by
  unfold nextPow2
  rw [if_neg (by norm_num), Nat.clog_one_right, pow_zero]

/-- The recursion never returns on the rounded size `1` either: it recurses
on `nextPow2 (1 / 2) = nextPow2 0 = 0`. -/
theorem haarOfP0_one : ∀ fuel, haarOfP0 fuel 1 = none := by
  intro fuel
  cases fuel with
  | zero => rfl
  | succ fuel =>
    rw [haarOfP0_succ, dif_neg (by norm_num)]
    rw [show haarOfP0 fuel (nextPow2 (1 / 2)) = none from haarOfP0_zero fuel]

/-- `haarMatrix(1, b)` diverges (Python: `RecursionError`) for every fuel. -/
theorem haarMatrix_one_none (fuel : ℕ) (b : Bool) : haarMatrix fuel 1 b = none := by
  unfold haarMatrix haarOfP
  rw [haarOfP0_congr fuel nextPow2_one, haarOfP0_one fuel]
  rfl

/-- Congruence for `haarOfP` along an equality of sizes. -/
theorem haarOfP_congr (fuel : ℕ) (b : Bool) {p p' : ℕ} (h : p = p') :
    haarOfP fuel p b = (haarOfP fuel p' b).map (reindexF2 h.symm h.symm) := by
  subst h
  cases hx : haarOfP fuel p b <;> simp [reindexF2_rfl]

theorem nextPow2_eq_pow_clog {n : ℕ} (hn : 2 ≤ n) :
    nextPow2 n = 2 ^ Nat.clog 2 n := by
  unfold nextPow2
  rw [if_neg (by omega)]

/-- Full evaluation of `haarMatrix` for `n ≥ 2` with enough fuel: it returns
the structural (normalized or unnormalized) Haar matrix of size
`2^⌈log2 n⌉`. -/
theorem haarMatrix_eval (n fuel : ℕ) (b : Bool) (hn : 2 ≤ n) (hf : Nat.clog 2 n ≤ fuel)
    (h1 : 2 ^ (Nat.clog 2 n - 1 + 1) = nextPow2 n) :
    haarMatrix fuel n b
      = some (reindexF2 h1 h1
          (if b then haarNS (Nat.clog 2 n - 1) else haarUnS (Nat.clog 2 n - 1))) := by
  have hK : 1 ≤ Nat.clog 2 n := Nat.clog_pos (by norm_num) hn
  unfold haarMatrix
  rw [haarOfP_congr fuel b h1.symm,
    haarOfP_pow (Nat.clog 2 n - 1) fuel b (by omega)]
  rw [Option.map_some']

/-- Termination with fuel `⌈log2 n⌉` for every `n ≥ 2` and either flag. -/
theorem haarMatrix_isSome (n fuel : ℕ) (b : Bool) (hn : 2 ≤ n)
    (hf : Nat.clog 2 n ≤ fuel) : (haarMatrix fuel n b).isSome = true := by
  have h1 : 2 ^ (Nat.clog 2 n - 1 + 1) = nextPow2 n := by
    have hK : 1 ≤ Nat.clog 2 n := Nat.clog_pos (by norm_num) hn
    rw [nextPow2_eq_pow_clog hn]
    congr 1
    omega
  rw [haarMatrix_eval n fuel b hn hf h1]
  rfl

/-- Gram transport: the matrix returned by `haarMatrix(n, True)` for `n ≥ 2`
has exactly orthonormal columns. -/
theorem haarMatrix_orthonormal (n fuel : ℕ) (hn : 2 ≤ n) (hf : Nat.clog 2 n ≤ fuel) :
    ∃ H : Matrix (Fin (nextPow2 n)) (Fin (nextPow2 n)) Q2,
      haarMatrix fuel n true = some H ∧ Hᵀ * H = 1 := by
  have h1 : 2 ^ (Nat.clog 2 n - 1 + 1) = nextPow2 n := by
    have hK : 1 ≤ Nat.clog 2 n := Nat.clog_pos (by norm_num) hn
    rw [nextPow2_eq_pow_clog hn]
    congr 1
    omega
  refine ⟨reindexF2 h1 h1 (haarNS (Nat.clog 2 n - 1)), ?_, ?_⟩
  · rw [haarMatrix_eval n fuel true hn hf h1]
    rfl
  · rw [reindexF2_transpose, reindexF2_mul, haarNS_gram, reindexF2_one]

theorem clog2_two : Nat.clog 2 2 = 1 := by
  exact Nat.clog_eq_one (by norm_num) (by norm_num)

theorem clog2_three : Nat.clog 2 3 = 2 := by
  rw [Nat.clog_of_two_le (by norm_num) (by norm_num),
    show (3 + 2 - 1) / 2 = 2 from by norm_num, clog2_two]

theorem nextPow2_two : nextPow2 2 = 2 := by
  rw [nextPow2_eq_pow_clog (by norm_num), clog2_two, pow_one]

theorem nextPow2_three : nextPow2 3 = 4 := by
  rw [nextPow2_eq_pow_clog (by norm_num), clog2_three]
  norm_num

/-- `clog 2 n ≤ n`, so fuel `n` is always sufficient for `haarMatrix(n)`. -/
theorem clog2_le_self (n : ℕ) : Nat.clog 2 n ≤ n := by
  rcases le_or_lt n 1 with h | h
  · rw [Nat.clog_of_right_le_one h]
    omega
  · calc Nat.clog 2 n ≤ Nat.clog 2 (2 ^ n) :=
        Nat.clog_mono_right 2 (le_of_lt (Nat.lt_two_pow n))
      _ = n := Nat.clog_pow 2 n (by norm_num)

end HaarTop

section GenBH

/-- A flat index below `q·n` is below any length equal to `n·q`. -/
theorem lt_of_fin_mul_comm {q n L : ℕ} (h : L = n * q) (i : Fin (q * n)) : (i : ℕ) < L :=
  lt_of_lt_of_le i.isLt (le_of_eq ((Nat.mul_comm q n).trans h.symm))

/-- Runtime-checked variant of `fastKronVecProd` on a list vector (a numpy
array of dynamic length): `np.reshape(v, (n, q), order='F')` raises a
`ValueError` unless `len(v) = n·q`; `none` models that raised error, which
propagates unchanged to the caller (no handler exists in the source). -/
def fastKronVecProdL {R : Type} [CommRing R] {p q m n : ℕ} (A : Matrix (Fin p) (Fin q) R)
    (B : Matrix (Fin m) (Fin n) R) (v : List R) : Option (List R) :=
  if h : v.length = n * q then
    some (List.ofFn (fastKronVecProd A B (fun i => v.get ⟨i.val, lt_of_fin_mul_comm h i⟩)))
  else none

/-- The `matvec` closure `applyH` of the operator `H` built by
`genBH(n, blursize)`: `fastKronVecProd(Hn, Hn, v)` with
`Hn = haarMatrix(n, normalized=True)`.  Fuel `n` is enough for every
terminating case (`⌈log2 n⌉ ≤ n`), and for `n ≤ 1` the construction of `Hn`
diverges at every fuel, which `none` models. -/
def genBH_applyH (n : ℕ) (v : List Q2) : Option (List Q2) :=
  (haarMatrix n n true).bind fun Hn => fastKronVecProdL Hn Hn v

/-- The `rmatvec` closure `applyHT` of the operator `H` built by `genBH`:
`fastKronVecProd(HnT, HnT, v)` with `HnT = Hn.T.copy()`. -/
def genBH_applyHT (n : ℕ) (v : List Q2) : Option (List Q2) :=
  (haarMatrix n n true).bind fun Hn => fastKronVecProdL Hnᵀ Hnᵀ v

/-- The `matvec` closure `applyB` of the operator `B` built by
`genBH(n, blursize)`: `fastKronVecProd(Brows, Bcols, v)` with
`Brows = Bcols = blurMatrix(n, width=blursize)`. -/
def genBH_applyB (n w : ℕ) (v : Fin (n * n) → ℚ) : Fin (n * n) → ℚ :=
  fastKronVecProd (blurMatrix n w) (blurMatrix n w) v

/-- The `rmatvec` closure `applyBT` of the operator `B` built by `genBH`:
`fastKronVecProd(BrowsT, BcolsT, v)` with the transposed copies. -/
def genBH_applyBT (n w : ℕ) (v : Fin (n * n) → ℚ) : Fin (n * n) → ℚ :=
  fastKronVecProd (blurMatrix n w)ᵀ (blurMatrix n w)ᵀ v

/-- Applying `(H ⊗ H)` then `(H^T ⊗ H^T)` to a correctly sized vector is the
identity whenever `H^T H = I`. -/
theorem fastKronVecProdL_gram_roundtrip {N : ℕ} (H : Matrix (Fin N) (Fin N) Q2)
    (hH : Hᵀ * H = 1) (v : List Q2) (hv : v.length = N * N) :
    (fastKronVecProdL H H v).bind (fun x => fastKronVecProdL Hᵀ Hᵀ x) = some v := by
  unfold fastKronVecProdL
  rw [dif_pos hv, Option.some_bind, dif_pos (List.length_ofFn _)]
  have hw : (fun i : Fin (N * N) =>
        (List.ofFn (fastKronVecProd H H (fun i =>
          v.get ⟨i.val, lt_of_fin_mul_comm hv i⟩))).get
          ⟨i.val, lt_of_fin_mul_comm (List.length_ofFn _) i⟩)
      = fastKronVecProd H H (fun i => v.get ⟨i.val, lt_of_fin_mul_comm hv i⟩) := by
    funext i
    rw [List.get_ofFn]
    exact congrArg _ (Fin.ext rfl)
  rw [hw, fastKronVecProd_eq_kron_mulVec, fastKronVecProd_eq_kron_mulVec,
    Matrix.mulVec_mulVec, kronF_mul, hH, kronF_one, Matrix.one_mulVec]
  congr 1
  refine List.ext_get (by rw [List.length_ofFn, hv]) ?_
  intro t h1 h2
  rw [List.get_ofFn]
  exact congrArg v.get (Fin.ext rfl)

/-- The checked product returns `none` exactly when the reshape length
precondition fails. -/
theorem fastKronVecProdL_none_iff {R : Type} [CommRing R] {p q m n : ℕ}
    (A : Matrix (Fin p) (Fin q) R) (B : Matrix (Fin m) (Fin n) R) (v : List R) :
    fastKronVecProdL A B v = none ↔ ¬ v.length = n * q := by
  unfold fastKronVecProdL
  split_ifs with h <;> simp [h]

/-- Round trip of the `H` operator of `genBH` on a power-of-two size. -/
theorem genBH_H_roundtrip (k : ℕ) (hk : 1 ≤ k) (v : List Q2)
    (hv : v.length = 2 ^ k * 2 ^ k) :
    (genBH_applyH (2 ^ k) v).bind (genBH_applyHT (2 ^ k)) = some v := by
  have h2n : 2 ≤ 2 ^ k := by
    calc (2:ℕ) = 2 ^ 1 := (pow_one 2).symm
      _ ≤ 2 ^ k := Nat.pow_le_pow_right (by norm_num) hk
  obtain ⟨H, hH, hg⟩ :=
    haarMatrix_orthonormal (2 ^ k) (2 ^ k) h2n (clog2_le_self (2 ^ k))
  unfold genBH_applyH genBH_applyHT
  rw [hH, Option.some_bind]
  have hfun : (fun x : List Q2 => (some H).bind fun Hn => fastKronVecProdL Hnᵀ Hnᵀ x)
      = fun x => fastKronVecProdL Hᵀ Hᵀ x := by
    funext x
    rw [Option.some_bind]
  rw [hfun]
  exact fastKronVecProdL_gram_roundtrip H hg v (by rw [nextPow2_pow]; exact hv)

/-- At `n = 3` (not a power of two) the `H` operator of `genBH` fails on a
vector of length `n² = 9`: the Haar factor has size `4`, so the reshape
inside `fastKronVecProd` raises. -/
theorem genBH_applyH_three :
    (genBH_applyH 3 (List.replicate 9 (0 : Q2))).bind (genBH_applyHT 3) = none := by
  have h1 : 2 ^ (Nat.clog 2 3 - 1 + 1) = nextPow2 3 := by
    rw [clog2_three, nextPow2_three]
    norm_num
  unfold genBH_applyH
  rw [haarMatrix_eval 3 3 true (by norm_num) (by rw [clog2_three]; norm_num) h1,
    Option.some_bind]
  rw [(fastKronVecProdL_none_iff _ _ _).mpr
    (by rw [List.length_replicate, nextPow2_three]; norm_num)]
  rfl

end GenBH

section Rescale

variable {m n : ℕ}

/-- `image.min()` of a (nonempty) image. -/
def imgMin (X : Matrix (Fin (m + 1)) (Fin (n + 1)) ℚ) : ℚ :=
  Finset.univ.inf' Finset.univ_nonempty (fun t : Fin (m + 1) × Fin (n + 1) => X t.1 t.2)

/-- `image.max()` of a (nonempty) image. -/
def imgMax (X : Matrix (Fin (m + 1)) (Fin (n + 1)) ℚ) : ℚ :=
  Finset.univ.sup' Finset.univ_nonempty (fun t : Fin (m + 1) × Fin (n + 1) => X t.1 t.2)

/-- `rescale(im) = skimage.exposure.rescale_intensity(im, out_range=(0,1))`
with the default `in_range='image'`: clip to `[imin, imax]` (a no-op here),
subtract `imin`, divide by `imax - imin`, and map to the output range
`(0, 1)` via `* (1 - 0) + 0`. -/
def rescale (X : Matrix (Fin (m + 1)) (Fin (n + 1)) ℚ) :
    Matrix (Fin (m + 1)) (Fin (n + 1)) ℚ :=
  Matrix.of fun i j =>
    (min (imgMax X) (max (imgMin X) (X i j)) - imgMin X) / (imgMax X - imgMin X)
      * (1 - 0) + 0

/-- Entries of `rescale`, min/max bounds and the linear-map form, for any
non-constant image. -/
theorem rescale_spec {m n : ℕ} (X : Matrix (Fin (m + 1)) (Fin (n + 1)) ℚ)
    (hne : imgMin X ≠ imgMax X) :
    imgMin (rescale X) = 0 ∧ imgMax (rescale X) = 1 ∧
      ∀ i j, rescale X i j = (X i j - imgMin X) / (imgMax X - imgMin X) := by
  have hlow : ∀ t : Fin (m + 1) × Fin (n + 1), imgMin X ≤ X t.1 t.2 :=
    fun t => Finset.inf'_le _ (Finset.mem_univ t)
  have hhigh : ∀ t : Fin (m + 1) × Fin (n + 1), X t.1 t.2 ≤ imgMax X :=
    fun t => Finset.le_sup' (fun t : Fin (m + 1) × Fin (n + 1) => X t.1 t.2)
      (Finset.mem_univ t)
  have hle : imgMin X ≤ imgMax X := le_trans (hlow (0, 0)) (hhigh (0, 0))
  have hlt : imgMin X < imgMax X := lt_of_le_of_ne hle hne
  have hd : 0 < imgMax X - imgMin X := by linarith
  have hform : ∀ i j, rescale X i j = (X i j - imgMin X) / (imgMax X - imgMin X) := by
    intro i j
    show (min (imgMax X) (max (imgMin X) (X i j)) - imgMin X) / (imgMax X - imgMin X)
        * (1 - 0) + 0 = _
    rw [max_eq_right (hlow (i, j)), min_eq_right (hhigh (i, j))]
    ring
  obtain ⟨ta, _, hta⟩ := Finset.exists_mem_eq_inf' (Finset.univ_nonempty)
    (fun t : Fin (m + 1) × Fin (n + 1) => X t.1 t.2)
  obtain ⟨tb, _, htb⟩ := Finset.exists_mem_eq_sup' (Finset.univ_nonempty)
    (fun t : Fin (m + 1) × Fin (n + 1) => X t.1 t.2)
  refine ⟨?_, ?_, hform⟩
  · apply le_antisymm
    · calc imgMin (rescale X) ≤ rescale X ta.1 ta.2 :=
          Finset.inf'_le _ (Finset.mem_univ ta)
        _ = (X ta.1 ta.2 - imgMin X) / (imgMax X - imgMin X) := hform _ _
        _ = 0 := by
            rw [show imgMin X = X ta.1 ta.2 from hta, sub_self, zero_div]
    · apply Finset.le_inf'
      intro t _
      rw [hform t.1 t.2]
      exact div_nonneg (by linarith [hlow t]) (le_of_lt hd)
  · apply le_antisymm
    · apply Finset.sup'_le
      intro t _
      rw [hform t.1 t.2]
      rw [div_le_one hd]
      linarith [hhigh t]
    · have hb1 : (1 : ℚ) = (X tb.1 tb.2 - imgMin X) / (imgMax X - imgMin X) := by
        have hx : imgMax X = X tb.1 tb.2 := htb
        rw [← hx, div_self (ne_of_gt hd)]
      calc (1 : ℚ)
          = (X tb.1 tb.2 - imgMin X) / (imgMax X - imgMin X) := hb1
        _ = rescale X tb.1 tb.2 := (hform _ _).symm
        _ ≤ imgMax (rescale X) :=
            Finset.le_sup' (fun t : Fin (m + 1) × Fin (n + 1) => rescale X t.1 t.2)
              (Finset.mem_univ tb)

end Rescale

section BlurCount

variable {m w : ℕ}

theorem blurGen_ne_zero {k : ℕ} (h : blurGen m w k ≠ 0) :
    blurGen m w k = 1 / w ∧ k ≤ halflen w := by
  unfold blurGen at h ⊢
  split_ifs at h ⊢ with hc
  · exact ⟨rfl, by omega⟩
  · exact absurd rfl h

theorem blurMatrix_apply_le (i j : Fin m) (hji : (j : ℕ) ≤ (i : ℕ)) :
    blurMatrix m w i j = blurGen m w ((i : ℕ) - (j : ℕ)) := if_pos hji

theorem blurMatrix_apply_gt (i j : Fin m) (hji : (i : ℕ) < (j : ℕ)) :
    blurMatrix m w i j = blurGen m w ((j : ℕ) - (i : ℕ)) := if_neg (by omega)

/-- A nonzero entry of the blur matrix equals `1/w` and lies within
`halflen` of the diagonal. -/
theorem blurMatrix_nonzero {i j : Fin m} (h : blurMatrix m w i j ≠ 0) :
    blurMatrix m w i j = 1 / w
      ∧ (i : ℕ) - (j : ℕ) ≤ halflen w ∧ (j : ℕ) - (i : ℕ) ≤ halflen w := by
  rcases le_or_lt (j : ℕ) (i : ℕ) with hji | hji
  · rw [blurMatrix_apply_le i j hji] at h ⊢
    obtain ⟨hv, hk⟩ := blurGen_ne_zero h
    exact ⟨hv, hk, by omega⟩
  · rw [blurMatrix_apply_gt i j hji] at h ⊢
    obtain ⟨hv, hk⟩ := blurGen_ne_zero h
    exact ⟨hv, by omega, hk⟩

/-- Each row of the blur matrix has at most `2·halflen + 1` nonzero
entries. -/
theorem blurMatrix_row_card (i : Fin m) :
    (Finset.univ.filter fun j : Fin m => blurMatrix m w i j ≠ 0).card
      ≤ 2 * halflen w + 1 := by
  have hmain := Finset.card_le_card_of_injOn
    (fun j : Fin m => (j : ℕ) + halflen w - (i : ℕ))
    (s := Finset.univ.filter fun j : Fin m => blurMatrix m w i j ≠ 0)
    (t := Finset.range (2 * halflen w + 1))
    (by
      intro j hj
      rw [Finset.mem_filter] at hj
      obtain ⟨_, h2, h3⟩ := blurMatrix_nonzero hj.2
      rw [Finset.mem_range]
      show (j : ℕ) + halflen w - (i : ℕ) < 2 * halflen w + 1
      omega)
    (by
      intro j1 h1 j2 h2 heq
      rw [Finset.mem_coe, Finset.mem_filter] at h1 h2
      obtain ⟨_, h12, h13⟩ := blurMatrix_nonzero h1.2
      obtain ⟨_, h22, h23⟩ := blurMatrix_nonzero h2.2
      have heq2 : (j1 : ℕ) + halflen w - (i : ℕ) = (j2 : ℕ) + halflen w - (i : ℕ) := heq
      exact Fin.ext (by omega))
  simpa [Finset.card_range] using hmain

end BlurCount

section Getrow

/-- Python list/array indexing with a possibly negative index: `a[k]` is
`a[k]` for `0 ≤ k < d`, wraps to `a[d + k]` for `-d ≤ k < 0`, and raises
`IndexError` otherwise. -/
def pyIdx (d : ℕ) (k : ℤ) : Option (Fin d) :=
  if h : 0 ≤ k ∧ k < d then some ⟨k.toNat, by omega⟩
  else if h2 : -(d : ℤ) ≤ k ∧ k < 0 then some ⟨(k + d).toNat, by omega⟩
  else none

/-- The standard basis vector `ei = np.zeros(d); ei[idx] = 1.0`. -/
def basisVec (d : ℕ) (idx : Fin d) : Fin d → ℚ := fun t => if t = idx then 1 else 0

/-- `getrow(B, i)` from the source: build `ei` with `ei[i-1] = 1.0` and
return `B.T @ ei` (the source then adds a leading `np.newaxis` dimension,
which we drop: the returned data is this vector). -/
def getrow {d : ℕ} (B : Matrix (Fin d) (Fin d) ℚ) (i : ℕ) : Option (Fin d → ℚ) :=
  (pyIdx d ((i : ℤ) - 1)).map fun idx => Bᵀ.mulVec (basisVec d idx)

/-- `B.T @ e_idx` is the `idx`-th row of `B`. -/
theorem transpose_mulVec_basis {d : ℕ} (B : Matrix (Fin d) (Fin d) ℚ) (idx : Fin d) :
    Bᵀ.mulVec (basisVec d idx) = fun j => B idx j := by
  funext j
  rw [Matrix.mulVec, dotProduct]
  simp only [Matrix.transpose_apply, basisVec, mul_ite, mul_one, mul_zero]
  rw [Finset.sum_ite_eq' Finset.univ idx (fun t => B t j)]
  simp

end Getrow

section Claims

/-- C1: for every matrix `A` of size `p×q`, every matrix `B` of size `r×s`,
and every vector `v` of length `q·s`, `fastKronVecProd(A, B, v)` equals the
dense Kronecker product `kron(A, B)` applied to `v`.  Proved exactly, for
all sizes (hence in particular `p=q=r=s ∈ {1,2,4,8}`). -/
theorem claim_C1_fastKron_refines_kron (p q r s : ℕ) (A : Matrix (Fin p) (Fin q) ℚ)
    (B : Matrix (Fin r) (Fin s) ℚ) (v : Fin (q * s) → ℚ) :
    fastKronVecProd A B v = (kronF A B).mulVec v :=
  fastKronVecProd_eq_kron_mulVec A B v

/-- `haarMatrix(1, normalized)` never returns: for every fuel bound the
recursion is still running (Python raises `RecursionError`).  This refutes
claim C2 as stated ("for every n ≥ 1") at the concrete input `n = 1`. -/
def HaarMatrixDivergesAtOne : Prop :=
  ∀ (fuel : ℕ) (b : Bool), haarMatrix fuel 1 b = none

/-- C2 counterexample: at `n = 1` the function returns nothing (for every
fuel), so it does not return an orthonormal matrix. -/
theorem claim_C2_counterexample : HaarMatrixDivergesAtOne :=
  fun fuel b => haarMatrix_one_none fuel b

/-- C2 (amended to `n ≥ 2`): `haarMatrix(n, True)` returns a square matrix
of size `2^⌈log2 n⌉` with exactly orthonormal columns, `Hᵀ * H = 1`. -/
theorem claim_C2_haar_orthonormal (n : ℕ) (hn : 2 ≤ n) :
    ∃ H : Matrix (Fin (nextPow2 n)) (Fin (nextPow2 n)) Q2,
      haarMatrix (Nat.clog 2 n) n true = some H ∧ Hᵀ * H = 1
        ∧ nextPow2 n = 2 ^ Nat.clog 2 n := by
  obtain ⟨H, h1, h2⟩ := haarMatrix_orthonormal n (Nat.clog 2 n) hn (le_refl _)
  exact ⟨H, h1, h2, nextPow2_eq_pow_clog hn⟩

/-- C2 witness at `n = 2`. -/
theorem claim_C2_witness :
    (2 : ℕ) ≤ 2 ∧
      ∃ H : Matrix (Fin (nextPow2 2)) (Fin (nextPow2 2)) Q2,
        haarMatrix (Nat.clog 2 2) 2 true = some H ∧ Hᵀ * H = 1
          ∧ nextPow2 2 = 2 ^ Nat.clog 2 2 :=
  ⟨le_refl 2, claim_C2_haar_orthonormal 2 (le_refl 2)⟩

/-- C3: column-major flattening followed by column-major reshaping is the
identity on `m × n` arrays, exactly. -/
theorem claim_C3_vectorize_roundtrip (m n : ℕ) (X : Matrix (Fin m) (Fin n) ℚ) :
    unvectorize (vectorize X) = X :=
  unvectorize_vectorize X

/-- C4 counterexample: for `m = 3`, `w = 3` (odd, `w ≤ m`), row `1` of
`blurMatrix(3, 3)` has `3` nonzero entries, exceeding the claimed bound
`1 + ⌈(w-1)/2⌉ = 2`. -/
theorem claim_C4_counterexample :
    (Finset.univ.filter fun j : Fin 3 => blurMatrix 3 3 1 j ≠ 0).card = 3
      ∧ ¬ (Finset.univ.filter fun j : Fin 3 => blurMatrix 3 3 1 j ≠ 0).card
          ≤ 1 + halflen 3 := by
  have hall : ∀ j : Fin 3, blurMatrix 3 3 1 j ≠ 0 := by
    intro j
    fin_cases j <;> norm_num [blurMatrix, toeplitzM, blurGen, halflen, Matrix.of_apply]
  have hfilter : (Finset.univ.filter fun j : Fin 3 => blurMatrix 3 3 1 j ≠ 0)
      = Finset.univ :=
    Finset.filter_true_of_mem (fun x _ => hall x)
  rw [hfilter]
  constructor
  · decide
  · decide

/-- C4 (amended: the per-row nonzero bound is `2·⌈(w-1)/2⌉ + 1 = w`, not
`1 + ⌈(w-1)/2⌉`): for `m ≥ 1` and odd `w ≤ m`, `blurMatrix(m, w)` is
symmetric and each row has at most `w` nonzero entries, each equal to
`1/w`. -/
theorem claim_C4_blur_rows (m w : ℕ) (hm : 1 ≤ m) (hodd : Odd w) (hwm : w ≤ m) :
    (blurMatrix m w)ᵀ = blurMatrix m w
      ∧ ∀ i : Fin m,
        (Finset.univ.filter fun j : Fin m => blurMatrix m w i j ≠ 0).card ≤ w
          ∧ ∀ j : Fin m, blurMatrix m w i j ≠ 0 → blurMatrix m w i j = 1 / w := by
  refine ⟨blurMatrix_symm m w, fun i => ⟨?_, fun j hj => (blurMatrix_nonzero hj).1⟩⟩
  obtain ⟨t, rfl⟩ := hodd
  have hc := blurMatrix_row_card (m := m) (w := 2 * t + 1) i
  have he : halflen (2 * t + 1) = t := by rw [halflen_eq]; omega
  omega

/-- C4 witness at `m = 3`, `w = 3`. -/
theorem claim_C4_witness :
    (1 ≤ 3 ∧ Odd 3 ∧ 3 ≤ 3) ∧
      ((blurMatrix 3 3)ᵀ = blurMatrix 3 3
        ∧ ∀ i : Fin 3,
          (Finset.univ.filter fun j : Fin 3 => blurMatrix 3 3 i j ≠ 0).card ≤ 3
            ∧ ∀ j : Fin 3, blurMatrix 3 3 i j ≠ 0 → blurMatrix 3 3 i j = 1 / 3) := by
  refine ⟨⟨by norm_num, ⟨1, by norm_num⟩, by norm_num⟩, ?_⟩
  have h := claim_C4_blur_rows 3 3 (by norm_num) ⟨1, by norm_num⟩ (by norm_num)
  have h3 : ((3 : ℕ) : ℚ) = 3 := by norm_num
  rw [h3] at h
  exact h

/-- C5 counterexample: at `n = 3` (which is `≥ 2` but not a power of two)
the `H` operator of `genBH` raises on the length-`9` vector `v = 0`:
the Haar factor has size `nextPow2 3 = 4 ≠ 3`, so the reshape inside
`fastKronVecProd` fails, and the round trip does not return `v`. -/
theorem claim_C5_counterexample :
    (genBH_applyH 3 (List.replicate 9 (0 : Q2))).bind (genBH_applyHT 3)
      ≠ some (List.replicate 9 (0 : Q2)) := by
  rw [genBH_applyH_three]
  exact fun h => Option.noConfusion h

/-- C5 (amended to powers of two `n = 2^k`, `k ≥ 1`): for every vector `v`
of length `n²`, the `H` operator of `genBH` satisfies
`H.applyAdjoint(H.apply(v)) = v` exactly.  (`H` does not depend on the blur
width argument of `genBH`.) -/
theorem claim_C5_haar_roundtrip (k : ℕ) (hk : 1 ≤ k) (v : List Q2)
    (hv : v.length = 2 ^ k * 2 ^ k) :
    (genBH_applyH (2 ^ k) v).bind (genBH_applyHT (2 ^ k)) = some v :=
  genBH_H_roundtrip k hk v hv

/-- C5 witness at `k = 1`, `v = [1, 2, 3, 4]`. -/
theorem claim_C5_witness :
    (1 : ℕ) ≤ 1 ∧
      (genBH_applyH (2 ^ 1) [(1 : Q2), ⟨2, 0⟩, ⟨3, 0⟩, ⟨4, 0⟩]).bind (genBH_applyHT (2 ^ 1))
        = some [(1 : Q2), ⟨2, 0⟩, ⟨3, 0⟩, ⟨4, 0⟩] :=
  ⟨le_refl 1, claim_C5_haar_roundtrip 1 (le_refl 1) _ (by decide)⟩

/-- C6: since `blurMatrix` is symmetric, the `B` operator of `genBH`
satisfies `B.applyAdjoint(v) = B.apply(v)` for every vector of length `n²`
(widths `w ≥ 1`; `w = 0` raises `ZeroDivisionError` in the source). -/
theorem claim_C6_blur_selfadjoint (n w : ℕ) (hn : 2 ≤ n) (hw : 1 ≤ w)
    (v : Fin (n * n) → ℚ) :
    genBH_applyBT n w v = genBH_applyB n w v := by
  unfold genBH_applyBT genBH_applyB
  rw [blurMatrix_symm]

/-- C6 witness at `n = 2`, `w = 1`, `v = (1, 2, 3, 4)`. -/
theorem claim_C6_witness :
    (2 : ℕ) ≤ 2 ∧ (1 : ℕ) ≤ 1 ∧
      genBH_applyBT 2 1 (fun i => ((i : ℕ) : ℚ)) = genBH_applyB 2 1 (fun i => ((i : ℕ) : ℚ)) :=
  ⟨le_refl 2, le_refl 1, claim_C6_blur_selfadjoint 2 1 (le_refl 2) (le_refl 1) _⟩

/-- C7: the checked `fastKronVecProd` fails (with the numeric library's
dimension-mismatch error, modelled as `none`, which propagates unchanged)
exactly when `len(v) ≠ cols(A)·cols(B)`, and succeeds otherwise. -/
theorem claim_C7_fastKron_error (p q r s : ℕ) (A : Matrix (Fin p) (Fin q) ℚ)
    (B : Matrix (Fin r) (Fin s) ℚ) (v : List ℚ) :
    (fastKronVecProdL A B v = none ↔ v.length ≠ q * s)
      ∧ ((fastKronVecProdL A B v).isSome ↔ v.length = q * s) := by
  have h := fastKronVecProdL_none_iff A B v
  have hmc : s * q = q * s := Nat.mul_comm s q
  constructor
  · rw [h, hmc]
  · have h2 : (fastKronVecProdL A B v).isSome = true
        ↔ ¬ fastKronVecProdL A B v = none := by
      cases fastKronVecProdL A B v <;> simp
    rw [h2, h, hmc, not_not]

/-- C8: for every non-constant image, `rescale` returns an image with
minimum `0` and maximum `1`, obtained by linearly mapping `[min, max]` to
`[0, 1]`. -/
theorem claim_C8_rescale (m n : ℕ) (X : Matrix (Fin (m + 1)) (Fin (n + 1)) ℚ)
    (hne : imgMin X ≠ imgMax X) :
    imgMin (rescale X) = 0 ∧ imgMax (rescale X) = 1 ∧
      ∀ i j, rescale X i j = (X i j - imgMin X) / (imgMax X - imgMin X) :=
  rescale_spec X hne

/-- C8 witness at the `1 × 2` image `[[0, 2]]`. -/
theorem claim_C8_witness :
    imgMin !![(0 : ℚ), 2] ≠ imgMax !![(0 : ℚ), 2] ∧
      (imgMin (rescale !![(0 : ℚ), 2]) = 0 ∧ imgMax (rescale !![(0 : ℚ), 2]) = 1 ∧
        ∀ i j, rescale !![(0 : ℚ), 2] i j
          = (!![(0 : ℚ), 2] i j - imgMin !![(0 : ℚ), 2])
            / (imgMax !![(0 : ℚ), 2] - imgMin !![(0 : ℚ), 2])) :=
  ⟨by decide, claim_C8_rescale 0 1 !![(0 : ℚ), 2] (by decide)⟩

/-- C9: for every `n ≥ 2` and either flag, `haarMatrix(n, normalized)`
terminates: the recursion reaches the base case within `⌈log2 n⌉` calls, so
any fuel of at least `⌈log2 n⌉` returns a value. -/
theorem claim_C9_haar_terminates (n fuel : ℕ) (b : Bool) (hn : 2 ≤ n)
    (hf : Nat.clog 2 n ≤ fuel) :
    (haarMatrix fuel n b).isSome = true :=
  haarMatrix_isSome n fuel b hn hf

/-- C9 witness at `n = 2`, `fuel = 1`. -/
theorem claim_C9_witness :
    (2 : ℕ) ≤ 2 ∧ Nat.clog 2 2 ≤ 1 ∧ (haarMatrix 1 2 false).isSome = true :=
  ⟨le_refl 2, by rw [clog2_two], claim_C9_haar_terminates 2 1 false (le_refl 2)
    (by rw [clog2_two])⟩

/-- C10: `getrow(B, i)` uses 1-based indexing: for `1 ≤ i ≤ d` it returns
row `i-1` (0-based) of `B`; and at `i = 0` it does not raise but returns the
last row, because the basis index `i-1 = -1` wraps around. -/
theorem claim_C10_getrow (d : ℕ) (B : Matrix (Fin d) (Fin d) ℚ) :
    (∀ i : Fin d, getrow B ((i : ℕ) + 1) = some (fun j => B i j))
      ∧ ∀ h : 0 < d, getrow B 0 = some (fun j => B ⟨d - 1, by omega⟩ j) := by
  constructor
  · intro i
    unfold getrow
    have hi := i.isLt
    have hidx : pyIdx d ((((i : ℕ) + 1 : ℕ) : ℤ) - 1) = some i := by
      unfold pyIdx
      rw [dif_pos ⟨by omega, by omega⟩]
      congr 1
      apply Fin.ext
      show (((((i : ℕ) + 1 : ℕ) : ℤ) - 1)).toNat = (i : ℕ)
      omega
    rw [hidx, Option.map_some', transpose_mulVec_basis]
  · intro h
    unfold getrow
    have hidx : pyIdx d (((0 : ℕ) : ℤ) - 1) = some ⟨d - 1, by omega⟩ := by
      unfold pyIdx
      rw [dif_neg (by omega), dif_pos ⟨by omega, by omega⟩]
      congr 1
      apply Fin.ext
      show (((((0 : ℕ) : ℤ) - 1)) + d).toNat = d - 1
      omega
    rw [hidx, Option.map_some', transpose_mulVec_basis]

/-- C10 witness at `d = 2`, `B = [[1, 2], [3, 4]]`: `getrow(B, 1)` is the
first row and `getrow(B, 0)` is the last row. -/
theorem claim_C10_witness :
    getrow !![(1 : ℚ), 2; 3, 4] 1 = some (fun j => !![(1 : ℚ), 2; 3, 4] 0 j)
      ∧ getrow !![(1 : ℚ), 2; 3, 4] 0 = some (fun j => !![(1 : ℚ), 2; 3, 4] ⟨1, by omega⟩ j) :=
  ⟨(claim_C10_getrow 2 !![(1 : ℚ), 2; 3, 4]).1 0,
    (claim_C10_getrow 2 !![(1 : ℚ), 2; 3, 4]).2 (by omega)⟩

end Claims
